import Mathlib

/-!
Shallow embedding of the Caesar-cipher repository (src/cryptography/caesar.rs,
src/cryptanalysis/shift.rs).

Modelling conventions:
  - Rust `char` values are modelled as natural-number Unicode code points;
    a Rust `&str` is a `List Nat` of code points.
  - `i32` / `isize` arithmetic is modelled with `Int` (no value in this program
    approaches the 32-bit range, so no wrap-around modelling is needed), and
    `usize` indexing with `Nat`; casting a negative `Int` to `usize` in Rust
    wraps to a huge value, which always makes `ALPHABET[..]` panic, so such a
    cast is modelled directly as the panicking (`none`) outcome.
  - `f32` values are modelled as exact rationals `ℚ`; all floating-point values
    produced on the inputs used in the witnesses below are small integers or
    simple fractions, where `f32` arithmetic is exact.
  - A Rust panic (out-of-bounds index, `.expect(..)`, `.unwrap()`) is modelled
    by an `Option` result being `none`.
  - `HashMap<char,f32>` is modelled as an association list `List (Nat × ℚ)`
    keyed by first occurrence; `Vec<(i32,f32)>` as `List (Int × ℚ)`.
  - `Vec::sort_by` is a stable sort; a stable sort by a total comparator is a
    uniquely determined function of its input, so it is modelled by a stable
    insertion sort (`sortByScore`).
-/

/-- Rust `char::is_ascii_alphabetic`: code point in `[65,90] ∪ [97,122]`. -/
def isAsciiAlphabetic (c : Nat) : Bool :=
  decide ((65 ≤ c ∧ c ≤ 90) ∨ (97 ≤ c ∧ c ≤ 122))

/-- Rust `char::to_ascii_lowercase`: adds 32 to an ASCII uppercase letter. -/
def toAsciiLowercase (c : Nat) : Nat :=
  if 65 ≤ c ∧ c ≤ 90 then c + 32 else c

/-- `ALPHABET` from caesar.rs: the 26 lowercase letters, as code points. -/
def ALPHABET : List Nat :=
  [97, 98, 99, 100, 101, 102, 103, 104, 105, 106, 107, 108, 109,
   110, 111, 112, 113, 114, 115, 116, 117, 118, 119, 120, 121, 122]

/-- Rust `Iterator::position`: index of the first element satisfying `p`. -/
def position (p : Nat → Bool) : List Nat → Option Nat
  | [] => none
  | x :: xs => if p x then some 0 else (position p xs).map (fun n => n + 1)

/-- The index-adjustment step of `shift_n` in caesar.rs (the `if`/`else if`
that replaces the modulo the author reports did not work): one conditional
add or subtract of 26. Note the `> 26` comparison of the source. -/
def adjust (shifted : Int) : Int :=
  if shifted < 0 then shifted + 26
  else if shifted > 26 then shifted - 26
  else shifted

/-- `shift_n` from caesar.rs. `c` is already lowercased by the caller.
`none` models the panic on a failed `.expect` or an out-of-bounds
`ALPHABET[shifted_idx as usize]` (a negative `i32` cast `as usize` wraps to a
huge index, hence also out of bounds). -/
def shift_n (c : Nat) (rot : Int) : Option Nat :=
  (position (fun ch => c == ch) ALPHABET).bind fun idx =>
    let adjusted := adjust ((idx : Int) + rot)
    if adjusted < 0 then none else ALPHABET[adjusted.toNat]?

/-- The per-character body of the closure in `rotn` from caesar.rs. -/
def rotnChar (c : Nat) (shift : Int) : Option Nat :=
  if isAsciiAlphabetic c then shift_n (toAsciiLowercase c) shift else some c

/-- `rotn` from caesar.rs: map `rotnChar` over the text, propagating a panic. -/
def rotn : List Nat → Int → Option (List Nat)
  | [], _ => some []
  | c :: cs, shift =>
      (rotnChar c shift).bind fun c2 =>
        (rotn cs shift).map fun cs2 => c2 :: cs2

/-- `encrypt` from caesar.rs. -/
def encrypt (plaintext : List Nat) (shift : Int) : Option (List Nat) :=
  rotn plaintext shift

/-- `decrypt` from caesar.rs: `rotn` with the negated shift. -/
def decrypt (ciphertext : List Nat) (shift : Int) : Option (List Nat) :=
  rotn ciphertext (-shift)

/-- `count.entry(ch).and_modify(|c| *c += 1.0).or_insert(1.0)` from
`letter_frequency` in shift.rs, on an association list. -/
def bump : List (Nat × ℚ) → Nat → List (Nat × ℚ)
  | [], c => [(c, 1)]
  | (k, v) :: rest, c =>
      if k = c then (k, v + 1) :: rest else (k, v) :: bump rest c

/-- The counting loop of `letter_frequency` in shift.rs. -/
def letterCounts (s : List Nat) : List (Nat × ℚ) :=
  s.foldl
    (fun m c => if isAsciiAlphabetic c then bump m (toAsciiLowercase c) else m)
    []

/-- `letter_frequency` from shift.rs: count the lowercased ASCII letters, then
divide every count by the total letter count. -/
def letter_frequency (s : List Nat) : List (Nat × ℚ) :=
  let count := letterCounts s
  let total_letters : ℚ := (count.map Prod.snd).sum
  count.map (fun kv => (kv.1, kv.2 / total_letters))

/-- `ENGLISH_MODEL` from shift.rs: the Denning et al. English letter
frequencies, keyed by code point. -/
def ENGLISH_MODEL : List (Nat × ℚ) :=
  [(97, 0.080), (98, 0.015), (99, 0.030), (100, 0.040), (101, 0.130),
   (102, 0.020), (103, 0.015), (104, 0.060), (105, 0.065), (106, 0.005),
   (107, 0.005), (108, 0.035), (109, 0.030), (110, 0.070), (111, 0.080),
   (112, 0.020), (113, 0.002), (114, 0.065), (115, 0.060), (116, 0.090),
   (117, 0.030), (118, 0.010), (119, 0.015), (120, 0.005), (121, 0.020),
   (122, 0.002)]

/-- The model frequency of a letter, as a total function (`0` off-table). -/
def englishFreq (c : Nat) : ℚ :=
  (List.lookup c ENGLISH_MODEL).getD 0

/-- `phi` from shift.rs: sum `cipher_freq - english_freq` over the profile's
entries; `none` models the panic of `.expect` on a key missing from
`ENGLISH_MODEL`. -/
def phi : List (Nat × ℚ) → Option ℚ
  | [] => some 0
  | kv :: rest =>
      (List.lookup kv.1 ENGLISH_MODEL).bind fun e =>
        (phi rest).map fun acc => (kv.2 - e) + acc

/-- One insertion step of the stable insertion sort modelling
`Vec::sort_by(|a,b| a.1.partial_cmp(&b.1).unwrap())`: a new element is placed
after every element whose score is `≤` its own. -/
def insertPair (x : Int × ℚ) : List (Int × ℚ) → List (Int × ℚ)
  | [] => [x]
  | y :: ys => if x.2 < y.2 then x :: y :: ys else y :: insertPair x ys

/-- The stable sort by score used by `frequency_analysis` in shift.rs. -/
def sortByScore (l : List (Int × ℚ)) : List (Int × ℚ) :=
  l.foldl (fun acc x => insertPair x acc) []

/-- The `(0..26).map(|i| (i, phi(letter_frequency(decrypt(c, i)))))` pipeline
of `frequency_analysis` in shift.rs, over an explicit list of shifts;
`none` models a panic in any of the 26 iterations. -/
def candidates (s : List Nat) : List Nat → Option (List (Int × ℚ))
  | [] => some []
  | i :: rest =>
      (decrypt s (i : Int)).bind fun p =>
        (phi (letter_frequency p)).bind fun sc =>
          (candidates s rest).map fun tail => ((i : Int), sc) :: tail

/-- `frequency_analysis` from shift.rs: score all 26 shifts, then sort
(stably) by score. -/
def frequency_analysis (s : List Nat) : Option (List (Int × ℚ)) :=
  (candidates s (List.range 26)).map sortByScore

/-- The strict "score, then shift" order in which `frequency_analysis`'s
output is claimed to be arranged: ascending score, ties by smaller shift. -/
def scoreLex (a b : Int × ℚ) : Prop :=
  a.2 < b.2 ∨ (a.2 = b.2 ∧ a.1 < b.1)

instance : DecidableRel scoreLex := fun a b => by
  unfold scoreLex; infer_instance

/-- UTF-8 encoded size in bytes of one code point (Rust `char::len_utf8`). -/
def utf8Len (c : Nat) : Nat :=
  if c < 128 then 1 else if c < 2048 then 2 else if c < 65536 then 3 else 4

/-- Rust `str::len`: length in UTF-8 bytes. -/
def strBytes (s : List Nat) : Nat :=
  (s.map utf8Len).sum

/-- Truncation toward zero, as used by Rust's `%` on `f32`. -/
def qtrunc (x : ℚ) : Int :=
  if 0 ≤ x then ⌊x⌋ else ⌈x⌉

/-- Rust `f32::%`: remainder with the sign of the dividend,
`x - m * trunc(x / m)`. -/
def truncRem (x m : ℚ) : ℚ :=
  x - m * (qtrunc (x / m) : ℚ)

/-- Rust `f32::round`: round half away from zero. -/
def qround (x : ℚ) : Int :=
  if 0 ≤ x then ⌊x + 1/2⌋ else ⌈x - 1/2⌉

/-- The accumulation loop of `deduce_key` in shift.rs: over the zipped
character pairs, add `shifted_idx - original_idx` whenever both lowercased
characters are found in `ALPHABET`, else skip the position. -/
def keyDiffSum : List (Nat × Nat) → Int → Int
  | [], acc => acc
  | (p, c) :: rest, acc =>
      match position (fun ch => ch == toAsciiLowercase p) ALPHABET,
            position (fun ch => ch == toAsciiLowercase c) ALPHABET with
      | some origIdx, some shiftIdx =>
          keyDiffSum rest (acc + ((shiftIdx : Int) - (origIdx : Int)))
      | _, _ => keyDiffSum rest acc

/-- `deduce_key` from shift.rs. The guard compares `str::len` (UTF-8 bytes,
`str::is_empty` being byte length zero); the divisor is `chars().count()`
(the character count); `%` is the truncating `f32` remainder; `round` is
half-away-from-zero; `as usize` on an `f32` saturates, so a negative rounded
average becomes `0` (`Int.toNat`). -/
def deduce_key (plaintext ciphertext : List Nat) : Option Nat :=
  if strBytes plaintext = 0 ∨ strBytes ciphertext = 0 ∨
      strBytes plaintext ≠ strBytes ciphertext then
    none
  else
    let sum : Int := keyDiffSum (plaintext.zip ciphertext) 0
    let avg : ℚ := (sum : ℚ) / (plaintext.length : ℚ)
    let r : ℚ := truncRem avg 26
    some (qround r).toNat

/-! ### Characterization of `position` on `ALPHABET` and of `shift_n` -/

set_option maxRecDepth 8000

theorem position_eq_none (p : Nat → Bool) (l : List Nat)
    (h : ∀ x ∈ l, p x = false) : position p l = none := by
  induction l with
  | nil => rfl
  | cons x xs ih =>
      have hx := h x (List.mem_cons_self x xs)
      have hxs := ih (fun y hy => h y (List.mem_cons_of_mem x hy))
      simp [position, hx, hxs]

theorem alphabet_mem_bounds (x : Nat) (hx : x ∈ ALPHABET) :
    97 ≤ x ∧ x ≤ 122 := by
  simp only [ALPHABET, List.mem_cons, List.not_mem_nil, or_false] at hx
  omega

theorem position_alphabet_left (c : Nat) :
    position (fun ch => c == ch) ALPHABET =
      if 97 ≤ c ∧ c ≤ 122 then some (c - 97) else none := by
  by_cases hc : c < 123
  · exact (by decide :
      ∀ c, c < 123 → position (fun ch => c == ch) ALPHABET =
        if 97 ≤ c ∧ c ≤ 122 then some (c - 97) else none) c hc
  · rw [if_neg (by omega)]
    refine position_eq_none _ _ (fun x hx => ?_)
    have hb := alphabet_mem_bounds x hx
    exact beq_eq_false_iff_ne.mpr (by omega)

theorem position_alphabet_right (c : Nat) :
    position (fun ch => ch == c) ALPHABET =
      if 97 ≤ c ∧ c ≤ 122 then some (c - 97) else none := by
  by_cases hc : c < 123
  · exact (by decide :
      ∀ c, c < 123 → position (fun ch => ch == c) ALPHABET =
        if 97 ≤ c ∧ c ≤ 122 then some (c - 97) else none) c hc
  · rw [if_neg (by omega)]
    refine position_eq_none _ _ (fun x hx => ?_)
    have hb := alphabet_mem_bounds x hx
    exact beq_eq_false_iff_ne.mpr (by omega)

theorem alphabet_getElem (j : Nat) :
    ALPHABET[j]? = if j < 26 then some (97 + j) else none := by
  by_cases hj : j < 26
  · rw [if_pos hj]
    exact (by decide : ∀ j, j < 26 → ALPHABET[j]? = some (97 + j)) j hj
  · rw [if_neg hj]
    refine List.getElem?_eq_none ?_
    rw [(by decide : ALPHABET.length = 26)]
    omega

/-- Closed form of `shift_n`: find the letter's index, adjust it by a single
conditional add/subtract of 26, and index the alphabet if still in bounds. -/
theorem shift_n_eq (c : Nat) (rot : Int) :
    shift_n c rot =
      if 97 ≤ c ∧ c ≤ 122 then
        (if 0 ≤ adjust ((c : Int) - 97 + rot) ∧
            adjust ((c : Int) - 97 + rot) ≤ 25 then
          some (97 + (adjust ((c : Int) - 97 + rot)).toNat)
        else none)
      else none := by
  unfold shift_n
  rw [position_alphabet_left]
  by_cases hP : 97 ≤ c ∧ c ≤ 122
  · rw [if_pos hP, if_pos hP, Option.some_bind]
    have hcast : ((c - 97 : Nat) : Int) = (c : Int) - 97 := by omega
    simp only [hcast]
    rw [alphabet_getElem]
    by_cases h0 : adjust ((c : Int) - 97 + rot) < 0
    · rw [if_pos h0, if_neg (by omega)]
    · rw [if_neg h0]
      by_cases h1 : (adjust ((c : Int) - 97 + rot)).toNat < 26
      · rw [if_pos h1, if_pos (by omega)]
      · rw [if_neg h1, if_neg (by omega)]
  · rw [if_neg hP, if_neg hP, Option.none_bind]

theorem tolower_of_not_alpha (c : Nat) (h : isAsciiAlphabetic c = false) :
    toAsciiLowercase c = c := by
  simp only [isAsciiAlphabetic, decide_eq_false_iff_not, not_or] at h
  simp only [toAsciiLowercase, if_neg h.1]

theorem tolower_alpha_range (c : Nat) (h : isAsciiAlphabetic c = true) :
    97 ≤ toAsciiLowercase c ∧ toAsciiLowercase c ≤ 122 := by
  simp only [isAsciiAlphabetic, decide_eq_true_eq] at h
  simp only [toAsciiLowercase]
  split_ifs <;> omega

theorem lower_alpha_of_range (c : Nat) (h1 : 97 ≤ c) (h2 : c ≤ 122) :
    isAsciiAlphabetic c = true ∧ toAsciiLowercase c = c := by
  constructor
  · simp only [isAsciiAlphabetic, decide_eq_true_eq]
    omega
  · simp only [toAsciiLowercase, if_neg (by omega : ¬(65 ≤ c ∧ c ≤ 90))]

/-! ### Lemmas about `rotnChar` and `rotn` -/

theorem bool_eq_false_of_ne_true {b : Bool} (h : ¬b = true) : b = false := by
  cases b
  · rfl
  · exact absurd rfl h

/-- A character that both encryption and decryption map without panicking
comes back as its own lowercase form. -/
theorem rotnChar_inv (c : Nat) (k : Int) (d e : Nat)
    (h1 : rotnChar c k = some d) (h2 : rotnChar d (-k) = some e) :
    e = toAsciiLowercase c := by
  by_cases ha : isAsciiAlphabetic c = true
  · obtain ⟨hl1, hl2⟩ := tolower_alpha_range c ha
    rw [rotnChar, if_pos ha, shift_n_eq, if_pos ⟨hl1, hl2⟩] at h1
    split_ifs at h1 with hb
    · have hd : d = 97 + (adjust ((toAsciiLowercase c : Int) - 97 + k)).toNat :=
        (Option.some_inj.mp h1).symm
      have hd1 : 97 ≤ d := by omega
      have hd2 : d ≤ 122 := by omega
      obtain ⟨hda, hdl⟩ := lower_alpha_of_range d hd1 hd2
      rw [rotnChar, if_pos hda, hdl, shift_n_eq, if_pos ⟨hd1, hd2⟩] at h2
      split_ifs at h2 with hc
      · have he : e = 97 + (adjust ((d : Int) - 97 + -k)).toNat :=
          (Option.some_inj.mp h2).symm
        simp only [adjust] at hb hc hd he
        split_ifs at hb hc hd he <;> omega
  · have haf := bool_eq_false_of_ne_true ha
    rw [rotnChar, if_neg ha] at h1
    have hdc : d = c := (Option.some_inj.mp h1).symm
    rw [hdc, rotnChar, if_neg ha] at h2
    rw [tolower_of_not_alpha c haf]
    exact (Option.some_inj.mp h2).symm

/-- A character that two shifts differing by 26 both map without panicking is
mapped to the same letter by both. -/
theorem rotnChar_congr26 (c : Nat) (k : Int) (d1 d2 : Nat)
    (h1 : rotnChar c k = some d1) (h2 : rotnChar c (k + 26) = some d2) :
    d1 = d2 := by
  by_cases ha : isAsciiAlphabetic c = true
  · obtain ⟨hl1, hl2⟩ := tolower_alpha_range c ha
    rw [rotnChar, if_pos ha, shift_n_eq, if_pos ⟨hl1, hl2⟩] at h1 h2
    split_ifs at h1 with hb1
    · split_ifs at h2 with hb2
      · have hd1 : d1 = 97 + (adjust ((toAsciiLowercase c : Int) - 97 + k)).toNat :=
          (Option.some_inj.mp h1).symm
        have hd2 : d2 = 97 + (adjust ((toAsciiLowercase c : Int) - 97 + (k + 26))).toNat :=
          (Option.some_inj.mp h2).symm
        simp only [adjust] at hb1 hb2 hd1 hd2
        split_ifs at hb1 hb2 hd1 hd2 <;> omega
  · rw [rotnChar, if_neg ha] at h1 h2
    rw [← Option.some_inj.mp h1, ← Option.some_inj.mp h2]

theorem rotn_inv (s : List Nat) (k : Int) :
    ∀ C P, rotn s k = some C → rotn C (-k) = some P →
      P = s.map toAsciiLowercase := by
  induction s with
  | nil =>
      intro C P h1 h2
      have hC : C = [] := by
        simpa [rotn] using h1.symm
      subst hC
      simpa [rotn] using h2.symm
  | cons c cs ih =>
      intro C P h1 h2
      rw [rotn] at h1
      cases hc : rotnChar c k with
      | none => rw [hc] at h1; exact absurd h1 (by simp)
      | some c2 =>
          rw [hc, Option.some_bind] at h1
          cases hcs : rotn cs k with
          | none => rw [hcs] at h1; exact absurd h1 (by simp)
          | some cs2 =>
              rw [hcs] at h1
              have hC : C = c2 :: cs2 := (Option.some_inj.mp h1).symm
              subst hC
              rw [rotn] at h2
              cases hd : rotnChar c2 (-k) with
              | none => rw [hd] at h2; exact absurd h2 (by simp)
              | some d2 =>
                  rw [hd, Option.some_bind] at h2
                  cases hds : rotn cs2 (-k) with
                  | none => rw [hds] at h2; exact absurd h2 (by simp)
                  | some ds2 =>
                      rw [hds] at h2
                      have hP : P = d2 :: ds2 := (Option.some_inj.mp h2).symm
                      subst hP
                      rw [List.map_cons]
                      rw [rotnChar_inv c k c2 d2 hc hd, ih cs2 ds2 hcs hds]

theorem rotn_congr26 (s : List Nat) (k : Int) :
    ∀ C1 C2, rotn s k = some C1 → rotn s (k + 26) = some C2 → C1 = C2 := by
  induction s with
  | nil =>
      intro C1 C2 h1 h2
      have e1 : C1 = [] := by simpa [rotn] using h1.symm
      have e2 : C2 = [] := by simpa [rotn] using h2.symm
      rw [e1, e2]
  | cons c cs ih =>
      intro C1 C2 h1 h2
      rw [rotn] at h1 h2
      cases hc1 : rotnChar c k with
      | none => rw [hc1] at h1; exact absurd h1 (by simp)
      | some d1 =>
          cases hc2 : rotnChar c (k + 26) with
          | none => rw [hc2] at h2; exact absurd h2 (by simp)
          | some d2 =>
              rw [hc1, Option.some_bind] at h1
              rw [hc2, Option.some_bind] at h2
              cases hs1 : rotn cs k with
              | none => rw [hs1] at h1; exact absurd h1 (by simp)
              | some t1 =>
                  cases hs2 : rotn cs (k + 26) with
                  | none => rw [hs2] at h2; exact absurd h2 (by simp)
                  | some t2 =>
                      rw [hs1] at h1
                      rw [hs2] at h2
                      rw [← Option.some_inj.mp h1, ← Option.some_inj.mp h2,
                        rotnChar_congr26 c k d1 d2 hc1 hc2, ih t1 t2 hs1 hs2]

theorem rotn_get (s : List Nat) (k : Int) :
    ∀ (C : List Nat) (i x : Nat),
      rotn s k = some C → s[i]? = some x → C[i]? = rotnChar x k := by
  induction s with
  | nil => intro C i x _ hx; exact absurd hx (by simp)
  | cons c cs ih =>
      intro C i x h1 hx
      rw [rotn] at h1
      cases hc : rotnChar c k with
      | none => rw [hc] at h1; exact absurd h1 (by simp)
      | some c2 =>
          rw [hc, Option.some_bind] at h1
          cases hcs : rotn cs k with
          | none => rw [hcs] at h1; exact absurd h1 (by simp)
          | some cs2 =>
              rw [hcs] at h1
              have hC : C = c2 :: cs2 := (Option.some_inj.mp h1).symm
              subst hC
              cases i with
              | zero =>
                  have hxc : x = c := by
                    have := hx
                    simp at this
                    omega
                  subst hxc
                  simpa using hc.symm
              | succ j =>
                  rw [List.getElem?_cons_succ] at hx ⊢
                  exact ih cs2 j x hcs hx

theorem rotn_length (s : List Nat) (k : Int) :
    ∀ C, rotn s k = some C → C.length = s.length := by
  induction s with
  | nil => intro C h; simp [← Option.some_inj.mp h]
  | cons c cs ih =>
      intro C h
      rw [rotn] at h
      cases hc : rotnChar c k with
      | none => rw [hc] at h; exact absurd h (by simp)
      | some c2 =>
          rw [hc, Option.some_bind] at h
          cases hcs : rotn cs k with
          | none => rw [hcs] at h; exact absurd h (by simp)
          | some cs2 =>
              rw [hcs] at h
              rw [← Option.some_inj.mp h]
              simp [ih cs2 hcs]

theorem rotn_isSome (s : List Nat) (k : Int)
    (h : ∀ c ∈ s, (rotnChar c k).isSome) : (rotn s k).isSome := by
  induction s with
  | nil => simp [rotn]
  | cons c cs ih =>
      rw [rotn]
      cases hc : rotnChar c k with
      | none =>
          have := h c (List.mem_cons_self c cs)
          rw [hc] at this
          exact absurd this (by simp)
      | some c2 =>
          have hcs := ih (fun y hy => h y (List.mem_cons_of_mem c hy))
          cases hrest : rotn cs k with
          | none => rw [hrest] at hcs; exact absurd hcs (by simp)
          | some cs2 => simp [hrest]

/-- Decryption with a shift in `[0, 25]` never hits the out-of-bounds index:
the adjusted index always lands back in `[0, 25]`. -/
theorem rotnChar_neg_isSome (c : Nat) (i : Nat) (hi : i ≤ 25) :
    (rotnChar c (-(i : Int))).isSome := by
  by_cases ha : isAsciiAlphabetic c = true
  · obtain ⟨hl1, hl2⟩ := tolower_alpha_range c ha
    rw [rotnChar, if_pos ha, shift_n_eq, if_pos ⟨hl1, hl2⟩, if_pos ?_]
    · simp
    · constructor <;> (simp only [adjust]; split_ifs <;> omega)
  · rw [rotnChar, if_neg ha]
    simp

/-! ### Claims C1, C2, C8, C9 -/

/-- C1 (counterexample): the round-trip claim fails as stated. For the text
"b" and shift 25 the claim demands `decrypt (encrypt "b" 25) 25 = "b"`, but
`encrypt "b" 25` computes alphabet index `1 + 25 = 26`, which the `> 26`
check does not reduce, so `ALPHABET[26]` panics and no string is returned. -/
theorem claim1_counterexample :
    ((encrypt [98] 25).bind fun C => decrypt C 25) ≠ some [98] := by decide

/-- C1 (amended): for every text `T` and every integer shift `k`, whenever
`decrypt (encrypt T k) k` returns at all (the out-of-bounds alphabet-index
panic of `shift_n` does not fire in either direction), the result is `T`
with every ASCII alphabetic character lowercased and every non-alphabetic
character unchanged. -/
theorem claim1_roundtrip_amended (s : List Nat) (k : Int)
    (h : ((encrypt s k).bind fun C => decrypt C k).isSome) :
    ((encrypt s k).bind fun C => decrypt C k) =
      some (s.map toAsciiLowercase) := by
  cases hC : encrypt s k with
  | none => rw [hC] at h; exact absurd h (by simp)
  | some C =>
      rw [hC] at h
      rw [Option.some_bind] at h ⊢
      cases hP : decrypt C k with
      | none => rw [hP] at h; exact absurd h (by simp)
      | some P => rw [rotn_inv s k C P hC hP]

/-- C1 (witness): round trip on "Hello, World!" with shift 3, which avoids
the panic in both directions. -/
theorem claim1_witness :
    ((encrypt [72, 101, 108, 108, 111, 44, 32, 87, 111, 114, 108, 100, 33] 3).bind
        fun C => decrypt C 3) =
      some (([72, 101, 108, 108, 111, 44, 32, 87, 111, 114, 108, 100, 33] :
        List Nat).map toAsciiLowercase) :=
  claim1_roundtrip_amended _ 3 (by decide)

/-- C2 (code bug): the claim that any integer shift is reduced into `[0, 25]`
and the alphabet indexing never goes out of bounds is the documented intent
(the source comment even says the `if`/`else if` stands in for `mod`), but
the code computes index 26 for "z" with shift 1 (`25 + 1 = 26` is not
`> 26`), leaves an index of 53 for "z" with shift 54 after a single
subtraction of 26, and leaves `-2` for "a" with shift `-28` after a single
addition, so `ALPHABET[shifted_idx as usize]` panics on all three. -/
theorem claim2_shift_oob_bug :
    encrypt [122] 1 = none ∧ encrypt [122] 54 = none ∧
      encrypt [97] (-28) = none := by decide

/-- C8 (counterexample): shift periodicity fails as stated: for the text "a",
`encrypt "a" 0 = "a"`, but `encrypt "a" 26` computes index `0 + 26 = 26`,
which the `> 26` check does not reduce, so `ALPHABET[26]` panics. -/
theorem claim8_counterexample :
    encrypt [97] 0 ≠ encrypt [97] (0 + 26) := by decide

/-- C8 (amended): `encrypt T k` equals `encrypt T (k + 26)` whenever both
calls return at all (neither hits the out-of-bounds alphabet-index panic). -/
theorem claim8_periodicity_amended (s : List Nat) (k : Int)
    (h1 : (encrypt s k).isSome) (h2 : (encrypt s (k + 26)).isSome) :
    encrypt s k = encrypt s (k + 26) := by
  cases hC1 : encrypt s k with
  | none => rw [hC1] at h1; exact absurd h1 (by simp)
  | some C1 =>
      cases hC2 : encrypt s (k + 26) with
      | none => rw [hC2] at h2; exact absurd h2 (by simp)
      | some C2 => rw [rotn_congr26 s k C1 C2 hC1 hC2]

/-- C8 (witness): periodicity holds on "ab" for shifts `-3` and `23`. -/
theorem claim8_witness :
    encrypt [97, 98] (-3) = encrypt [97, 98] (-3 + 26) :=
  claim8_periodicity_amended _ _ (by decide) (by decide)

/-- C9: whenever `encrypt` (resp. `decrypt`) returns a string, every
non-ASCII-alphabetic input character reappears unchanged at its position;
and concretely `encrypt "a1 b!" 3 = "d1 e!"`: the characters "1", " ", "!"
stay in place while a ↦ d and b ↦ e. -/
theorem claim9_non_alpha_invariant :
    (∀ (s : List Nat) (k : Int) (C : List Nat) (i x : Nat),
        encrypt s k = some C → s[i]? = some x →
        isAsciiAlphabetic x = false → C[i]? = some x) ∧
    (∀ (s : List Nat) (k : Int) (C : List Nat) (i x : Nat),
        decrypt s k = some C → s[i]? = some x →
        isAsciiAlphabetic x = false → C[i]? = some x) ∧
    encrypt [97, 49, 32, 98, 33] 3 = some [100, 49, 32, 101, 33] := by
  refine ⟨?_, ?_, by decide⟩
  · intro s k C i x hC hx hna
    rw [rotn_get s k C i x hC hx, rotnChar, if_neg (by simp [hna])]
  · intro s k C i x hC hx hna
    rw [rotn_get s (-k) C i x hC hx, rotnChar, if_neg (by simp [hna])]

/-- C9 (witness): in `encrypt "a1 b!" 3 = "d1 e!"`, position 1 (the
character "1") is unchanged. -/
theorem claim9_witness : ([100, 49, 32, 101, 33] : List Nat)[1]? = some 49 :=
  claim9_non_alpha_invariant.1 [97, 49, 32, 98, 33] 3 [100, 49, 32, 101, 33]
    1 49 (by decide) (by decide) (by decide)

/-! ### The letter-frequency profiler and the scorer: claims C5 and C6 -/

theorem foldl_counts_no_alpha (s : List Nat) :
    ∀ acc, (∀ c ∈ s, isAsciiAlphabetic c = false) →
      s.foldl
        (fun m c =>
          if isAsciiAlphabetic c then bump m (toAsciiLowercase c) else m)
        acc = acc := by
  induction s with
  | nil => intro acc _; rfl
  | cons c cs ih =>
      intro acc h
      rw [List.foldl_cons, if_neg (by simp [h c (List.mem_cons_self c cs)])]
      exact ih acc (fun y hy => h y (List.mem_cons_of_mem c hy))

/-- C6: a text with no ASCII alphabetic character produces the empty profile;
the division loop of `letter_frequency` runs over no entries at all, so no
division by the zero letter total is performed. -/
theorem claim6_empty_profile (s : List Nat)
    (h : ∀ c ∈ s, isAsciiAlphabetic c = false) : letter_frequency s = [] := by
  unfold letter_frequency letterCounts
  rw [foldl_counts_no_alpha s [] h]
  rfl

/-- C6 (witness): the profile of "123 !" is empty. -/
theorem claim6_witness : letter_frequency [49, 50, 51, 32, 33] = [] :=
  claim6_empty_profile _ (by decide)

theorem english_lookup_isSome (c : Nat) (h1 : 97 ≤ c) (h2 : c ≤ 122) :
    (List.lookup c ENGLISH_MODEL).isSome :=
  (by decide :
    ∀ c, c < 123 → 97 ≤ c → (List.lookup c ENGLISH_MODEL).isSome)
    c (by omega) h1

/-- `phi` on a profile whose keys are all lowercase letters never panics and
computes the plain signed sum of differences against the model. -/
theorem phi_eq_sum (profile : List (Nat × ℚ))
    (h : ∀ kv ∈ profile, 97 ≤ kv.1 ∧ kv.1 ≤ 122) :
    phi profile =
      some ((profile.map fun kv => kv.2 - englishFreq kv.1).sum) := by
  induction profile with
  | nil => simp [phi]
  | cons kv rest ih =>
      obtain ⟨hk1, hk2⟩ := h kv (List.mem_cons_self kv rest)
      obtain ⟨e, he⟩ :=
        Option.isSome_iff_exists.mp (english_lookup_isSome kv.1 hk1 hk2)
      rw [phi, he, Option.some_bind,
        ih (fun y hy => h y (List.mem_cons_of_mem kv hy))]
      simp [englishFreq, he]

/-- C5: for every frequency profile (keyed by letters, per the data model),
`phi` returns exactly the signed sum, over the letters present in the
profile, of `profile[letter] - reference_frequency(letter)`; absent letters
contribute nothing, and positive and negative terms cancel in the sum. -/
theorem claim5_phi_signed_sum (profile : List (Nat × ℚ))
    (h : ∀ kv ∈ profile, 97 ≤ kv.1 ∧ kv.1 ≤ 122) :
    phi profile =
      some ((profile.map fun kv => kv.2 - englishFreq kv.1).sum) :=
  phi_eq_sum profile h

/-- C5 (witness): the profile of a text of one "e" and one "t" scores
`(1/2 - 0.130) + (1/2 - 0.090)`. -/
theorem claim5_witness :
    phi [(101, (1 : ℚ)/2), (116, 1/2)] =
      some ((([(101, (1 : ℚ)/2), (116, 1/2)] : List (Nat × ℚ)).map
        fun kv => kv.2 - englishFreq kv.1).sum) :=
  claim5_phi_signed_sum _ (by decide)

theorem phi_isSome (p : List (Nat × ℚ))
    (h : ∀ kv ∈ p, 97 ≤ kv.1 ∧ kv.1 ≤ 122) : (phi p).isSome := by
  rw [phi_eq_sum p h]
  rfl

theorem bump_keys_bound (P : Nat → Prop) (c : Nat) (hc : P c) :
    ∀ m : List (Nat × ℚ), (∀ kv ∈ m, P kv.1) →
      ∀ kv ∈ bump m c, P kv.1 := by
  intro m
  induction m with
  | nil =>
      intro _ kv hkv
      simp only [bump, List.mem_singleton] at hkv
      rw [hkv]
      exact hc
  | cons kv0 rest ih =>
      obtain ⟨k, v⟩ := kv0
      intro hm kv hkv
      simp only [bump] at hkv
      by_cases hk : k = c
      · rw [if_pos hk] at hkv
        rcases List.mem_cons.mp hkv with heq | hmem
        · rw [heq, hk]
          exact hc
        · exact hm kv (List.mem_cons_of_mem _ hmem)
      · rw [if_neg hk] at hkv
        rcases List.mem_cons.mp hkv with heq | hmem
        · rw [heq]
          exact hm (k, v) (List.mem_cons_self _ _)
        · exact ih (fun y hy => hm y (List.mem_cons_of_mem _ hy)) kv hmem

theorem foldl_counts_keys (s : List Nat) :
    ∀ acc : List (Nat × ℚ), (∀ kv ∈ acc, 97 ≤ kv.1 ∧ kv.1 ≤ 122) →
      ∀ kv ∈ s.foldl
        (fun m c =>
          if isAsciiAlphabetic c then bump m (toAsciiLowercase c) else m)
        acc, 97 ≤ kv.1 ∧ kv.1 ≤ 122 := by
  induction s with
  | nil => intro acc hacc kv hkv; exact hacc kv hkv
  | cons c cs ih =>
      intro acc hacc kv hkv
      rw [List.foldl_cons] at hkv
      by_cases ha : isAsciiAlphabetic c = true
      · rw [if_pos ha] at hkv
        obtain ⟨hl1, hl2⟩ := tolower_alpha_range c ha
        exact ih (bump acc (toAsciiLowercase c))
          (bump_keys_bound (fun n => 97 ≤ n ∧ n ≤ 122) _ ⟨hl1, hl2⟩ acc hacc)
          kv hkv
      · rw [if_neg ha] at hkv
        exact ih acc hacc kv hkv

theorem letter_frequency_keys (s : List Nat) :
    ∀ kv ∈ letter_frequency s, 97 ≤ kv.1 ∧ kv.1 ≤ 122 := by
  intro kv hkv
  unfold letter_frequency at hkv
  simp only [List.mem_map] at hkv
  obtain ⟨kv0, hkv0, heq⟩ := hkv
  have hb := foldl_counts_keys s [] (by simp) kv0 hkv0
  rw [← heq]
  exact hb

/-! ### The frequency-analysis attack: claims C3 and C10 -/

theorem insertPair_perm (x : Int × ℚ) (l : List (Int × ℚ)) :
    (insertPair x l).Perm (x :: l) := by
  induction l with
  | nil => exact List.Perm.refl _
  | cons y ys ih =>
      rw [insertPair]
      split_ifs
      · exact List.Perm.refl _
      · exact (List.Perm.cons y ih).trans (List.Perm.swap x y ys)

theorem foldl_insert_perm (l : List (Int × ℚ)) :
    ∀ acc, (l.foldl (fun a x => insertPair x a) acc).Perm (acc ++ l) := by
  induction l with
  | nil => intro acc; simp
  | cons x xs ih =>
      intro acc
      rw [List.foldl_cons]
      exact (ih (insertPair x acc)).trans
        (((insertPair_perm x acc).append_right xs).trans
          List.perm_middle.symm)

theorem sortByScore_perm (l : List (Int × ℚ)) : (sortByScore l).Perm l := by
  simpa using foldl_insert_perm l []

theorem insertPair_pairwise (x : Int × ℚ) :
    ∀ l, l.Pairwise scoreLex → (∀ y ∈ l, y.2 = x.2 → y.1 < x.1) →
      (insertPair x l).Pairwise scoreLex := by
  intro l
  induction l with
  | nil => intro _ _; simp [insertPair]
  | cons y ys ih =>
      intro hp hx
      obtain ⟨hy, hys⟩ := List.pairwise_cons.mp hp
      rw [insertPair]
      split_ifs with hlt
      · refine List.Pairwise.cons ?_ hp
        intro z hz
        rcases List.mem_cons.mp hz with rfl | hmem
        · exact Or.inl hlt
        · rcases hy z hmem with h | ⟨heq, _⟩
          · exact Or.inl (lt_trans hlt h)
          · exact Or.inl (heq ▸ hlt)
      · refine List.Pairwise.cons ?_
          (ih hys (fun z hz hze => hx z (List.mem_cons_of_mem _ hz) hze))
        intro z hz
        have hz2 : z = x ∨ z ∈ ys :=
          List.mem_cons.mp ((insertPair_perm x ys).mem_iff.mp hz)
        rcases hz2 with rfl | hmem
        · rcases lt_or_eq_of_le (not_lt.mp hlt) with h | h
          · exact Or.inl h
          · exact Or.inr ⟨h, hx y (List.mem_cons_self y ys) h⟩
        · exact hy z hmem

theorem foldl_insert_pairwise :
    ∀ (l acc : List (Int × ℚ)), acc.Pairwise scoreLex →
      (∀ x ∈ l, ∀ y ∈ acc, y.1 < x.1) →
      l.Pairwise (fun a b => a.1 < b.1) →
      (l.foldl (fun a x => insertPair x a) acc).Pairwise scoreLex := by
  intro l
  induction l with
  | nil => intro acc h _ _; simpa using h
  | cons x xs ih =>
      intro acc hacc hfst hl
      obtain ⟨hx, hxs⟩ := List.pairwise_cons.mp hl
      rw [List.foldl_cons]
      apply ih
      · exact insertPair_pairwise x acc hacc
          (fun y hy _ => hfst x (List.mem_cons_self x xs) y hy)
      · intro x2 hx2 y hy
        have : y = x ∨ y ∈ acc :=
          List.mem_cons.mp ((insertPair_perm x acc).mem_iff.mp hy)
        rcases this with rfl | hmem
        · exact hx x2 hx2
        · exact hfst x2 (List.mem_cons_of_mem _ hx2) y hmem
      · exact hxs

theorem sortByScore_pairwise (l : List (Int × ℚ))
    (h : l.Pairwise (fun a b => a.1 < b.1)) :
    (sortByScore l).Pairwise scoreLex :=
  foldl_insert_pairwise l [] List.Pairwise.nil (by simp) h

theorem candidates_map_fst (s : List Nat) :
    ∀ (shifts : List Nat) (pairs : List (Int × ℚ)),
      candidates s shifts = some pairs →
      pairs.map Prod.fst = shifts.map (fun i : Nat => (i : Int)) := by
  intro shifts
  induction shifts with
  | nil =>
      intro pairs h
      rw [← Option.some_inj.mp h]
      rfl
  | cons i rest ih =>
      intro pairs h
      rw [candidates] at h
      cases hd : decrypt s (i : Int) with
      | none => rw [hd] at h; exact absurd h (by simp)
      | some p =>
          rw [hd, Option.some_bind] at h
          cases hphi : phi (letter_frequency p) with
          | none => rw [hphi] at h; exact absurd h (by simp)
          | some sc =>
              rw [hphi, Option.some_bind] at h
              cases hc : candidates s rest with
              | none => rw [hc] at h; exact absurd h (by simp)
              | some tail =>
                  rw [hc] at h
                  have : ((i : Int), sc) :: tail = pairs :=
                    Option.some_inj.mp (by simpa using h)
                  rw [← this, List.map_cons, List.map_cons, ih tail hc]

theorem candidates_isSome (s : List Nat) :
    ∀ shifts : List Nat, (∀ i ∈ shifts, i ≤ 25) →
      (candidates s shifts).isSome := by
  intro shifts
  induction shifts with
  | nil => intro _; simp [candidates]
  | cons i rest ih =>
      intro h
      rw [candidates]
      have hd : (decrypt s (i : Int)).isSome :=
        rotn_isSome s (-(i : Int))
          (fun c _ => rotnChar_neg_isSome c i (h i (List.mem_cons_self i rest)))
      obtain ⟨p, hp⟩ := Option.isSome_iff_exists.mp hd
      rw [hp, Option.some_bind]
      obtain ⟨sc, hsc⟩ := Option.isSome_iff_exists.mp
        (phi_isSome (letter_frequency p) (letter_frequency_keys p))
      rw [hsc, Option.some_bind]
      obtain ⟨tail, ht⟩ := Option.isSome_iff_exists.mp
        (ih (fun y hy => h y (List.mem_cons_of_mem i hy)))
      rw [ht]
      rfl

/-- C10: `frequency_analysis` is total: none of the 26 decryptions (shifts 0
through 25) ever leaves the alphabet index range `[0, 25]`, every key of
every resulting profile is a lowercase letter covered by `ENGLISH_MODEL`, so
`phi`'s lookup never panics, and every score is a well-defined rational, so
the sort's comparator is total. -/
theorem claim10_analysis_total (s : List Nat) :
    (frequency_analysis s).isSome := by
  unfold frequency_analysis
  obtain ⟨pairs, hp⟩ := Option.isSome_iff_exists.mp
    (candidates_isSome s (List.range 26)
      (fun i hi => by simp only [List.mem_range] at hi; omega))
  rw [hp]
  rfl

/-- C3: the output of `frequency_analysis` has exactly 26 entries whose shift
components are a permutation of `0..25`, and it is arranged in non-decreasing
score order with ties broken by the smaller shift first (the input is
produced in increasing shift order and the sort is stable). -/
theorem claim3_analysis_sorted (s : List Nat) (out : List (Int × ℚ))
    (h : frequency_analysis s = some out) :
    out.length = 26 ∧
      (out.map Prod.fst).Perm ((List.range 26).map (fun i : Nat => (i : Int))) ∧
      out.Pairwise scoreLex := by
  unfold frequency_analysis at h
  cases hc : candidates s (List.range 26) with
  | none => rw [hc] at h; exact absurd h (by simp)
  | some pairs =>
      rw [hc] at h
      have hout : out = sortByScore pairs :=
        (Option.some_inj.mp (by simpa using h)).symm
      have hfst := candidates_map_fst s (List.range 26) pairs hc
      have hperm := sortByScore_perm pairs
      have hpw_range :
          ((List.range 26).map (fun i : Nat => (i : Int))).Pairwise
            (fun a b => a < b) := by
        rw [List.pairwise_map]
        exact (List.pairwise_lt_range 26).imp (fun hab => Int.ofNat_lt.mpr hab)
      have hpw : pairs.Pairwise (fun a b => a.1 < b.1) := by
        rw [← hfst, List.pairwise_map] at hpw_range
        exact hpw_range
      subst hout
      refine ⟨?_, ?_, sortByScore_pairwise pairs hpw⟩
      · rw [hperm.length_eq]
        have := congrArg List.length hfst
        simpa using this
      · rw [← hfst]
        exact hperm.map Prod.fst

/-- C3 (witness): on the empty ciphertext, all 26 candidates score 0 and the
stable sort keeps them in shift order. -/
theorem claim3_witness :
    (((List.range 26).map (fun i => ((i : Int), (0 : ℚ)))).length = 26 ∧
      ((((List.range 26).map (fun i => ((i : Int), (0 : ℚ)))).map
        Prod.fst).Perm ((List.range 26).map (fun i : Nat => (i : Int)))) ∧
      ((List.range 26).map (fun i => ((i : Int), (0 : ℚ)))).Pairwise
        scoreLex) :=
  claim3_analysis_sorted [] _ (by decide)

/-! ### The known-plaintext deducer: claims C4 and C7 -/

theorem utf8Len_pos (c : Nat) : 1 ≤ utf8Len c := by
  unfold utf8Len
  split_ifs <;> omega

theorem strBytes_eq_zero_iff (s : List Nat) : strBytes s = 0 ↔ s = [] := by
  cases s with
  | nil => simp [strBytes]
  | cons c cs =>
      simp only [strBytes, List.map_cons, List.sum_cons]
      constructor
      · intro h
        have := utf8Len_pos c
        omega
      · intro h
        exact absurd h (by simp)

theorem strBytes_ascii (s : List Nat) (h : ∀ c ∈ s, c < 128) :
    strBytes s = s.length := by
  induction s with
  | nil => rfl
  | cons c cs ih =>
      have h1 : utf8Len c = 1 := by
        unfold utf8Len
        rw [if_pos (h c (List.mem_cons_self c cs))]
      have h2 := ih (fun y hy => h y (List.mem_cons_of_mem c hy))
      simp only [strBytes, List.map_cons, List.sum_cons, List.length_cons]
      unfold strBytes at h2
      omega

/-- C7 (counterexample): the claim describes character counts, but the code
compares UTF-8 byte lengths. "é" (U+00E9, two UTF-8 bytes, one character)
against "ab" (two bytes, two characters) passes the byte-length guard, so
`deduce_key` returns `Some 0` even though the character counts differ and
the claim demands `None`. -/
theorem claim7_counterexample :
    ¬(deduce_key [233] [97, 98] = none ↔
      (([233] : List Nat) = [] ∨ ([97, 98] : List Nat) = [] ∨
        ([233] : List Nat).length ≠ ([97, 98] : List Nat).length)) := by
  decide

/-- C7 (amended): `deduce_key` returns `None` exactly when the plaintext is
empty, the ciphertext is empty, or the two strings differ in length measured
in UTF-8 bytes (not characters); otherwise it returns `Some` result. -/
theorem claim7_none_iff_amended (p c : List Nat) :
    deduce_key p c = none ↔
      (p = [] ∨ c = [] ∨ strBytes p ≠ strBytes c) := by
  unfold deduce_key
  split_ifs with h
  · constructor
    · intro _
      rcases h with h | h | h
      · exact Or.inl ((strBytes_eq_zero_iff p).mp h)
      · exact Or.inr (Or.inl ((strBytes_eq_zero_iff c).mp h))
      · exact Or.inr (Or.inr h)
    · intro _
      rfl
  · constructor
    · intro hcontra
      exact absurd hcontra (by simp)
    · intro hr
      exfalso
      apply h
      rcases hr with hr | hr | hr
      · exact Or.inl (by rw [hr]; rfl)
      · exact Or.inr (Or.inl (by rw [hr]; rfl))
      · exact Or.inr (Or.inr hr)

/-- Encrypting an all-alphabetic text with a shift in `[0, 25]` that wraps no
character past "z" adds the shift to every lowercased code point. -/
theorem rotn_alpha_nowrap (k : Nat) (hk : k ≤ 25) :
    ∀ p : List Nat, (∀ c ∈ p, isAsciiAlphabetic c = true) →
      (∀ c ∈ p, toAsciiLowercase c + k ≤ 122) →
      rotn p (k : Int) = some (p.map fun c => toAsciiLowercase c + k) := by
  intro p
  induction p with
  | nil => intro _ _; rfl
  | cons c cs ih =>
      intro ha hw
      have hac := ha c (List.mem_cons_self c cs)
      obtain ⟨hl1, hl2⟩ := tolower_alpha_range c hac
      have hwc := hw c (List.mem_cons_self c cs)
      rw [rotn, rotnChar, if_pos hac, shift_n_eq, if_pos ⟨hl1, hl2⟩]
      have hadj : adjust ((toAsciiLowercase c : Int) - 97 + (k : Int)) =
          (toAsciiLowercase c : Int) - 97 + (k : Int) := by
        simp only [adjust]
        split_ifs <;> omega
      rw [hadj, if_pos (by constructor <;> omega), Option.some_bind,
        ih (fun y hy => ha y (List.mem_cons_of_mem c hy))
          (fun y hy => hw y (List.mem_cons_of_mem c hy))]
      have hhead : 97 + ((toAsciiLowercase c : Int) - 97 + (k : Int)).toNat =
          toAsciiLowercase c + k := by omega
      simp only [Option.map_some', List.map_cons, hhead]

theorem keyDiffSum_const (k : Nat) :
    ∀ (p : List Nat) (acc : Int), (∀ c ∈ p, isAsciiAlphabetic c = true) →
      (∀ c ∈ p, toAsciiLowercase c + k ≤ 122) →
      keyDiffSum (p.zip (p.map fun c => toAsciiLowercase c + k)) acc =
        acc + (p.length : Int) * (k : Int) := by
  intro p
  induction p with
  | nil => intro acc _ _; simp [keyDiffSum]
  | cons c cs ih =>
      intro acc ha hw
      have hac := ha c (List.mem_cons_self c cs)
      obtain ⟨hl1, hl2⟩ := tolower_alpha_range c hac
      have hwc := hw c (List.mem_cons_self c cs)
      have h1 : position (fun ch => ch == toAsciiLowercase c) ALPHABET =
          some (toAsciiLowercase c - 97) := by
        rw [position_alphabet_right, if_pos ⟨hl1, hl2⟩]
      have h2 : position
          (fun ch => ch == toAsciiLowercase (toAsciiLowercase c + k))
          ALPHABET = some (toAsciiLowercase c + k - 97) := by
        rw [(lower_alpha_of_range (toAsciiLowercase c + k) (by omega) hwc).2,
          position_alphabet_right, if_pos ⟨by omega, hwc⟩]
      rw [List.map_cons, List.zip_cons_cons]
      simp only [keyDiffSum, h1, h2]
      rw [ih _ (fun y hy => ha y (List.mem_cons_of_mem c hy))
        (fun y hy => hw y (List.mem_cons_of_mem c hy))]
      simp only [List.length_cons]
      push_cast
      have : ((toAsciiLowercase c + k - 97 : Nat) : Int) -
          ((toAsciiLowercase c - 97 : Nat) : Int) = (k : Int) := by omega
      rw [this]
      ring

theorem qtrunc_div26 (k : Nat) (hk : k ≤ 25) : qtrunc ((k : ℚ) / 26) = 0 := by
  unfold qtrunc
  rw [if_pos (by positivity)]
  rw [Int.floor_eq_zero_iff]
  constructor
  · positivity
  · rw [div_lt_one (by norm_num)]
    exact_mod_cast (by omega : k < 26)

theorem truncRem_small (k : Nat) (hk : k ≤ 25) :
    truncRem (k : ℚ) 26 = (k : ℚ) := by
  unfold truncRem
  rw [qtrunc_div26 k hk]
  norm_num

theorem qround_natCast (k : Nat) : qround (k : ℚ) = (k : Int) := by
  unfold qround
  rw [if_pos (by positivity)]
  rw [Int.floor_eq_iff]
  constructor
  · push_cast
    linarith
  · push_cast
    linarith

/-- Concrete evaluation: `deduce_key "z" "b"` returns `Some 0`: the single
signed difference is `1 - 25 = -24`, the truncating `%` leaves `-24`,
`round` keeps `-24`, and the saturating `as usize` cast yields `0`. -/
theorem deduce_key_z_b : deduce_key [122] [98] = some 0 := by
  unfold deduce_key
  rw [if_neg (by decide)]
  show some (qround (truncRem
      ((keyDiffSum ([(122, 98)] : List (Nat × Nat)) 0 : ℚ) /
        (([122] : List Nat).length : ℚ)) 26)).toNat = some 0
  rw [(by decide : keyDiffSum ([(122, 98)] : List (Nat × Nat)) 0 = -24)]
  have havg : ((-24 : Int) : ℚ) / ((([122] : List Nat).length : Nat) : ℚ) =
      -24 := by norm_num
  rw [havg]
  have htr : truncRem (-24 : ℚ) 26 = -24 := by
    unfold truncRem qtrunc
    rw [if_neg (by norm_num)]
    rw [show ⌈(-24 : ℚ) / 26⌉ = 0 from by
      rw [Int.ceil_eq_iff]
      norm_num]
    norm_num
  rw [htr]
  have hro : qround (-24 : ℚ) = -24 := by
    unfold qround
    rw [if_neg (by norm_num)]
    rw [Int.ceil_eq_iff]
    norm_num
  rw [hro]
  rfl

/-- C4 (counterexample): the claim fails as stated. For the all-alphabetic
plaintext "z" and shift 2, `encrypt "z" 2 = "b"` (index `25 + 2 = 27`
wraps correctly), but `deduce_key "z" "b"` accumulates the signed
difference `1 - 25 = -24`, the truncating `%` leaves `-24` (true modular
reduction would give `2`), `round` keeps `-24`, and the saturating
`as usize` cast turns it into `0`: the result is `Some 0`, not `Some 2`. -/
theorem claim4_counterexample :
    ((encrypt [122] 2).bind fun C => deduce_key [122] C) = some 0 ∧
      ((encrypt [122] 2).bind fun C => deduce_key [122] C) ≠ some 2 := by
  rw [(by decide : encrypt [122] 2 = some [98]), Option.some_bind,
    deduce_key_z_b]
  exact ⟨rfl, by decide⟩

/-- C4 (amended): for every non-empty plaintext of ASCII alphabetic
characters and every shift `k` in `[0, 25]` such that no character wraps
past "z" (lowercased code point plus `k` stays at most 122),
`deduce_key(plaintext, encrypt(plaintext, k))` returns `Some k`;
in particular `deduce_key("hello", encrypt("hello", 7))` returns `7`. -/
theorem claim4_known_plaintext_amended (p : List Nat) (k : Nat)
    (hne : p ≠ []) (ha : ∀ c ∈ p, isAsciiAlphabetic c = true)
    (hk : k ≤ 25) (hw : ∀ c ∈ p, toAsciiLowercase c + k ≤ 122) :
    ((encrypt p (k : Int)).bind fun C => deduce_key p C) = some k := by
  rw [show encrypt p (k : Int) =
      some (p.map fun c => toAsciiLowercase c + k) from
    rotn_alpha_nowrap k hk p ha hw, Option.some_bind]
  have hp128 : ∀ c ∈ p, c < 128 := by
    intro c hc
    have := ha c hc
    simp only [isAsciiAlphabetic, decide_eq_true_eq] at this
    omega
  have hC128 : ∀ c ∈ p.map fun c => toAsciiLowercase c + k, c < 128 := by
    intro c hc
    simp only [List.mem_map] at hc
    obtain ⟨c0, hc0, heq⟩ := hc
    have := hw c0 hc0
    omega
  have hpb := strBytes_ascii p hp128
  have hCb := strBytes_ascii _ hC128
  have hplen : p.length ≠ 0 := by
    intro hzero
    exact hne (List.length_eq_zero.mp hzero)
  unfold deduce_key
  rw [if_neg (by
    rw [hpb, hCb, List.length_map]
    push_neg
    exact ⟨hplen, hplen, rfl⟩)]
  show some (qround (truncRem
      ((keyDiffSum (p.zip (p.map fun c => toAsciiLowercase c + k)) 0 : ℚ) /
        (p.length : ℚ)) 26)).toNat = some k
  rw [keyDiffSum_const k p 0 ha hw, zero_add]
  have havg : (((p.length : Int) * (k : Int) : Int) : ℚ) / (p.length : ℚ) =
      (k : ℚ) := by
    push_cast
    exact mul_div_cancel_left₀ _ (by exact_mod_cast hplen)
  rw [havg, truncRem_small k hk, qround_natCast k]
  rw [Int.toNat_natCast]

/-- C4 (witness): `deduce_key("hello", encrypt("hello", 7))` returns `7`. -/
theorem claim4_witness :
    ((encrypt [104, 101, 108, 108, 111] ((7 : Nat) : Int)).bind
      fun C => deduce_key [104, 101, 108, 108, 111] C) = some 7 :=
  claim4_known_plaintext_amended [104, 101, 108, 108, 111] 7
    (by decide) (by decide) (by decide) (by decide)
